import Mathlib

/-!
Verification development for `scripts/process_binary.py` of the
`llvm-binary-releases` repository.

The script is a linear pipeline: download a release archive into a cache,
extract it (stripping a single root component when the archive is nested),
scan the tree for executable binaries (optionally filtered by an allow-list),
and stage the binaries together with a JSON metadata file.

This file gives a shallow embedding of the pure logic of that script:
Python `pathlib` path manipulation is modelled over `String`/`List Char`,
filesystem and network effects are modelled by explicit state passing, and
the `re.search` call is modelled by a deterministic matcher for the one
regular expression the script uses.
-/

set_option maxRecDepth 10000

namespace ProcessBinary

/-! ### ASCII character case model (Python `str.lower` / `str.upper`) -/

/-- Model of Python `str.lower` on a single character (ASCII fragment):
uppercase letters `A`-`Z` (code points 65-90) map 32 code points up. -/
def charLower (c : Char) : Char :=
  if 65 ≤ c.toNat ∧ c.toNat ≤ 90 then Char.ofNat (c.toNat + 32) else c

/-- Model of Python `str.upper` on a single character (ASCII fragment). -/
def charUpper (c : Char) : Char :=
  if 97 ≤ c.toNat ∧ c.toNat ≤ 122 then Char.ofNat (c.toNat - 32) else c

/-- Model of Python `str.lower`. -/
def pyLower (s : String) : String := String.mk (s.data.map charLower)

/-- Model of Python `str.upper`. -/
def pyUpper (s : String) : String := String.mk (s.data.map charUpper)

/-- Substring test on character lists: does `pat` occur contiguously? -/
def containsSeq (pat : List Char) : List Char → Bool
  | [] => pat.isEmpty
  | c :: rest => pat.isPrefixOf (c :: rest) || containsSeq pat rest

/-- Model of Python `needle in hay` on strings. -/
def pyIn (needle hay : String) : Bool := containsSeq needle.data hay.data

/-- Whitespace characters stripped by Python `str.strip()` (ASCII fragment). -/
def isSpaceChar (c : Char) : Bool :=
  c = ' ' || c = '\t' || c = '\n' || c = '\r' || c.toNat = 11 || c.toNat = 12

/-- Model of Python `str.strip()`. -/
def pyStrip (s : String) : String :=
  String.mk (((s.data.dropWhile isSpaceChar).reverse.dropWhile isSpaceChar).reverse)

/-! ### Model of `pathlib.Path` parsing (POSIX flavour)

`Path(s).parts` splits on `/`, drops empty and `.` segments, and keeps a
root marker (`/`, or `//` for a path starting with exactly two slashes)
as the first part of an absolute path. -/

/-- Split a character list on `/` separators. -/
def splitOnSlash : List Char → List (List Char)
  | [] => [[]]
  | c :: rest =>
    if c = '/' then [] :: splitOnSlash rest
    else
      match splitOnSlash rest with
      | [] => [[c]]
      | h :: t => (c :: h) :: t

/-- Root marker of a POSIX path: `/` for an absolute path, `//` when the
path starts with exactly two slashes (POSIX special case kept by pathlib). -/
def rootParts (cs : List Char) : List (List Char) :=
  if cs.head? = some '/' then
    if (cs.drop 1).head? = some '/' then
      if (cs.drop 2).head? = some '/' then [['/']] else [['/', '/']]
    else [['/']]
  else []

/-- Model of `pathlib.Path(s).parts`. -/
def pyParts (s : String) : List String :=
  (rootParts s.data ++
    (splitOnSlash s.data).filter (fun l => !(l == []) && !(l == ['.']))).map String.mk

/-- Join components with `/` (model of `'/'.join`). -/
def joinSlash : List (List Char) → List Char
  | [] => []
  | [p] => p
  | p :: ps => p ++ '/' :: joinSlash ps

/-- Model of `str(Path(*parts))` for a component list produced by `pyParts`. -/
def pyJoin (parts : List String) : String :=
  match parts with
  | [] => "."
  | h :: t =>
    if h = "/" ∨ h = "//" then String.mk (h.data ++ joinSlash (t.map String.data))
    else String.mk (joinSlash ((h :: t).map String.data))

/-- Model of `pathlib.Path(s).name`: the final component, or `""` when the
path has no component beyond a root marker. -/
def pyName (s : String) : String :=
  match (pyParts s).getLast? with
  | none => ""
  | some p => if p = "/" ∨ p = "//" then "" else p

/-- Index of the last `.` in a character list, if any. -/
def lastDotIdx : List Char → Option Nat
  | [] => none
  | c :: rest =>
    match lastDotIdx rest with
    | some i => some (i + 1)
    | none => if c = '.' then some 0 else none

/-- Model of `pathlib` `suffix` of a file name: the part from the last dot
on, provided that dot is neither the first nor the last character. -/
def pySuffix (name : String) : String :=
  match lastDotIdx name.data with
  | some i => if 0 < i ∧ i + 1 < name.data.length then String.mk (name.data.drop i) else ""
  | none => ""

/-- Model of `pathlib` `stem` of a file name: the name with `pySuffix`
removed. -/
def pyStem (name : String) : String :=
  match lastDotIdx name.data with
  | some i => if 0 < i ∧ i + 1 < name.data.length then String.mk (name.data.take i) else name
  | none => name

/-! ### Cache Store (`get_cache_filename`, `get_extract_dirname`) -/

/-- `get_cache_filename`: `self.cache_dir / Path(self.binary_url).name`. -/
def get_cache_filename (cacheDir url : String) : String :=
  cacheDir ++ "/" ++ pyName url

/-- `get_extract_dirname`: `Path(self.binary_url).stem`, with a trailing
`.tar` additionally removed (`name[:-4]`), joined under the extract dir. -/
def get_extract_dirname (extractDir url : String) : String :=
  let name := pyStem (pyName url)
  let name :=
    if List.isSuffixOf ".tar".data name.data
    then String.mk (name.data.take (name.data.length - 4)) else name
  extractDir ++ "/" ++ name

/-! ### Filesystem/network state for the cached download and extraction

The filesystem and the network are modelled by explicit state: `files` is
the set of existing paths, and the counters record how many downloads and
extractions were actually performed. -/

structure SysState where
  files : List String
  networkOps : Nat
  extractOps : Nat
  removals : List String
deriving DecidableEq

/-- `download_file`: return the cache path unchanged on a cache hit
(caching enabled and the target exists); otherwise download (one network
operation) and create the file. -/
def download_file (noCache : Bool) (cacheDir url : String) (s : SysState) :
    String × SysState :=
  let cachePath := get_cache_filename cacheDir url
  if noCache = false ∧ cachePath ∈ s.files then (cachePath, s)
  else (cachePath, { s with files := cachePath :: s.files, networkOps := s.networkOps + 1 })

/-- Caching wrapper of `extract_archive`: return the extraction directory
unchanged on a cache hit; otherwise remove any existing directory at the
target, then extract (one extraction operation). -/
def extract_archive_cached (noCache : Bool) (extractDir url : String) (s : SysState) :
    String × SysState :=
  let extractPath := get_extract_dirname extractDir url
  if noCache = false ∧ extractPath ∈ s.files then (extractPath, s)
  else
    let s1 :=
      if extractPath ∈ s.files
      then { s with files := s.files.erase extractPath, removals := extractPath :: s.removals }
      else s
    (extractPath, { s1 with files := extractPath :: s1.files, extractOps := s1.extractOps + 1 })

/-! ### Member-level extraction logic of `extract_archive` -/

/-- Does a member name contain a path separator (`'/' in m.name`)? -/
def hasSep (m : String) : Bool := m.data.contains '/'

/-- One member under root-stripping: `parts = Path(member.name).parts[1:]`;
extracted as `str(Path(*parts))` when `parts` is non-empty, skipped
otherwise. -/
def stripMember (m : String) : Option String :=
  let parts := (pyParts m).drop 1
  if parts.isEmpty then none else some (pyJoin parts)

/-- `extract_archive` member logic: the list of member paths written under
the extraction directory.  If any member name contains `/`, every member is
re-rooted by `stripMember`; otherwise (`tar.extractall`) members are
extracted verbatim. -/
def extract_archive (members : List String) : List String :=
  if members.any hasSep then members.filterMap stripMember else members

/-! ### Binary classification (`is_binary_file`) -/

/-- A filesystem entry as seen by `is_binary_file`: whether it is a regular
file, its final name component, whether `os.access(path, os.X_OK)` holds,
and the stdout of the external `file` probe. -/
structure FileEntry where
  isFile : Bool
  name : String
  executable : Bool
  fileOutput : String
deriving DecidableEq

/-- `is_binary_file`: not a regular file -> False; `path.suffix.lower() ==
'.exe'` -> True; not user-executable -> False; else `'text' not in
result.stdout.lower()`. -/
def is_binary_file (e : FileEntry) : Bool :=
  if e.isFile = false then false
  else if pyLower (pySuffix e.name) = ".exe" then true
  else if e.executable = false then false
  else !(pyIn "text" (pyLower e.fileOutput))

/-- C5's classification as the claim states it: regular file AND (the name
ends in a case-insensitive `.exe` suffix OR the entry is executable and the
probe output is not textual). -/
def claimedBinary (e : FileEntry) : Bool :=
  e.isFile &&
    (List.isSuffixOf ".exe".data (pyLower e.name).data ||
      (e.executable && !(pyIn "text" (pyLower e.fileOutput))))

/-- C5's classification as amended: the `.exe` disjunct additionally
requires the name to be longer than the four characters `.exe` (so that a
bare `.exe` hidden-file name, whose pathlib suffix is empty, is excluded). -/
def claimedBinaryAmended (e : FileEntry) : Bool :=
  e.isFile &&
    ((List.isSuffixOf ".exe".data (pyLower e.name).data && decide (4 < e.name.data.length)) ||
      (e.executable && !(pyIn "text" (pyLower e.fileOutput))))

/-! ### Binary filter (`load_binaries`, `matches_binary_filter`) -/

/-- One line of the binaries file: strip it, skip blanks and `#` comments,
otherwise record both the name and its `.exe` alias. -/
def loadLine (acc : List String) (line : String) : List String :=
  let l := pyStrip line
  if l ≠ "" ∧ ¬ (List.isPrefixOf "#".data l.data) then acc ++ [l, l ++ ".exe"]
  else acc

/-- `load_binaries`: fold `loadLine` over the lines of the binaries file.
The Python `set` is modelled by a list up to membership. -/
def load_binaries (lines : List String) : List String :=
  lines.foldl loadLine []

/-- `name.endswith('.exe')` (case-sensitive, as in `matches_binary_filter`). -/
def endsExe (name : String) : Bool := List.isSuffixOf ".exe".data name.data

/-- `name[:-4]`. -/
def dropExe (name : String) : String := String.mk (name.data.take (name.data.length - 4))

/-- `matches_binary_filter`: a `None` or empty filter accepts everything;
otherwise the name matches directly, with a case-sensitive `.exe` suffix
removed, or with `.exe` appended. -/
def matches_binary_filter (filt : Option (List String)) (name : String) : Bool :=
  match filt with
  | none => true
  | some f =>
    if f.isEmpty then true
    else
      f.contains name ||
        (endsExe name && f.contains (dropExe name)) ||
        (!endsExe name && f.contains (name ++ ".exe"))

/-- `find_binaries`: every scanned entry that is a binary and matches the
filter.  The scanned tree is modelled as the list of entries `rglob`
visits (each path once). -/
def find_binaries (filt : Option (List String)) (entries : List FileEntry) :
    List FileEntry :=
  entries.filter (fun e => is_binary_file e && matches_binary_filter filt e.name)

/-! ### Version / platform / os extraction (`extract_metadata`)

`re.search(r'LLVM-(\d+\.\d+\.\d+)', url)` is modelled by a deterministic
matcher: `matchTripleAt` is the anchored match at one position (with Python
`\d` restricted to ASCII digits, the only digits occurring in these URLs),
and `searchLLVM` scans positions left to right. -/

/-- Anchored match of `LLVM-(\d+\.\d+\.\d+)` at the start of `cs`,
returning the captured group: after the literal marker, three greedy
(maximal) digit runs separated by literal dots, each required non-empty. -/
def matchTripleAt (cs : List Char) : Option (List Char) :=
  if List.isPrefixOf ['L', 'L', 'V', 'M', '-'] cs then
    let rest := cs.drop 5
    let d1 := rest.takeWhile Char.isDigit
    let r1 := rest.dropWhile Char.isDigit
    if r1.head? = some '.' then
      let r2 := r1.tail
      let d2 := r2.takeWhile Char.isDigit
      let r3 := r2.dropWhile Char.isDigit
      if r3.head? = some '.' then
        let r4 := r3.tail
        let d3 := r4.takeWhile Char.isDigit
        if d1.isEmpty || d2.isEmpty || d3.isEmpty then none
        else some (d1 ++ '.' :: (d2 ++ '.' :: d3))
      else none
    else none
  else none

/-- Leftmost search for `LLVM-(\d+\.\d+\.\d+)`. -/
def searchLLVM : List Char → Option (List Char)
  | [] => none
  | c :: rest =>
    match matchTripleAt (c :: rest) with
    | some v => some v
    | none => searchLLVM rest

/-- Declarative reading of one anchored match: `cs` is the marker `LLVM-`
followed by three non-empty maximal digit runs separated by dots, and `v`
is the captured `X.Y.Z` group. -/
def tripleDecomp (cs v : List Char) : Prop :=
  ∃ d1 d2 d3 rest,
    cs = 'L' :: 'L' :: 'V' :: 'M' :: '-' :: (d1 ++ '.' :: (d2 ++ '.' :: (d3 ++ rest))) ∧
    d1 ≠ [] ∧ d2 ≠ [] ∧ d3 ≠ [] ∧
    (∀ c ∈ d1, c.isDigit = true) ∧ (∀ c ∈ d2, c.isDigit = true) ∧
    (∀ c ∈ d3, c.isDigit = true) ∧
    (∀ c, rest.head? = some c → c.isDigit = false) ∧
    v = d1 ++ '.' :: (d2 ++ '.' :: d3)

/-- Version part of `extract_metadata`. -/
def extract_version (url : String) : String :=
  match searchLLVM url.data with
  | some v => String.mk v
  | none => "unknown"

/-- Platform part of `extract_metadata`. -/
def extract_platform (url : String) : String :=
  let u := pyUpper url
  if pyIn "ARM64" u then "arm64"
  else if pyIn "X86_64" u || pyIn "X64" u then "x86_64"
  else "unknown"

/-- OS part of `extract_metadata`. -/
def extract_os (url : String) : String :=
  let l := pyLower url
  if pyIn "macos" l then "darwin"
  else if pyIn "linux" l then "linux"
  else if pyIn "windows" l || pyIn "win64" l then "windows"
  else "unknown"

/-! ### Metadata record (`extract_metadata` and the `process` additions) -/

/-- JSON values occurring in the metadata dictionary. -/
inductive JVal where
  | str (s : String)
  | arr (a : List String)
deriving DecidableEq

/-- The dictionary returned by `extract_metadata` (the timestamp argument
models `datetime.now(timezone.utc).isoformat()`). -/
def extract_metadata (url now : String) : List (String × JVal) :=
  let version := extract_version url
  let platform := extract_platform url
  let osName := extract_os url
  [("version", JVal.str version),
   ("platform", JVal.str platform),
   ("os", JVal.str osName),
   ("release_tag", JVal.str ("llvm-" ++ version ++ "-" ++ platform ++ "-" ++ osName)),
   ("source_url", JVal.str url),
   ("extraction_date", JVal.str now)]

/-- String comparison used by Python `sorted` (lexicographic on code
points). -/
def strLe (a b : String) : Bool := a == b || decide (a < b)

/-- Insertion step of `pySorted`. -/
def insertStr (x : String) : List String → List String
  | [] => [x]
  | y :: ys => if strLe x y then x :: y :: ys else y :: insertStr x ys

/-- Model of Python `sorted` on a list of strings. -/
def pySorted : List String → List String
  | [] => []
  | x :: xs => insertStr x (pySorted xs)

/-- Display name of a processed binary: `b.name[:-4]` when the lowered name
ends with `.exe`, else the name itself. -/
def stripDisplay (name : String) : String :=
  if List.isSuffixOf ".exe".data (pyLower name).data then dropExe name else name

/-- The metadata dictionary as written to `metadata.json` by `process`:
`extract_metadata` plus the sorted display names under
`processed_binaries`. -/
def process_metadata (url now : String) (binaryNames : List String) :
    List (String × JVal) :=
  extract_metadata url now ++
    [("processed_binaries", JVal.arr (pySorted (binaryNames.map stripDisplay)))]

/-! ### The `process` pipeline and its exit code -/

/-- Names printed by the "No matching binaries found" report: the filter
entries that do not end in `.exe`, sorted (printed only when a non-empty
filter is configured). -/
def reportMissing (filt : Option (List String)) : List String :=
  match filt with
  | none => []
  | some f => if f.isEmpty then [] else pySorted (f.filter (fun b => !endsExe b))

/-- The `process` driver: each effectful step is modelled by an `Except`
outcome (`error` = the step raised).  The result is the process exit code
together with the list of names the empty-result report printed.  Any
raised exception is caught by the top-level handler and turns into exit
code 1; the empty-binaries outcome returns normally (exit code 0). -/
def processRun (listOnly : Bool) (filt : Option (List String))
    (dl : Except String String) (ext : String → Except String String)
    (findB : String → Except String (List FileEntry))
    (writeMeta : Except String Unit) (copyAll : Except String Unit) :
    Nat × List String :=
  match dl with
  | .error _ => (1, [])
  | .ok tarballPath =>
    match ext tarballPath with
    | .error _ => (1, [])
    | .ok extractPath =>
      match findB extractPath with
      | .error _ => (1, [])
      | .ok bins =>
        if listOnly then (0, [])
        else if bins.isEmpty then (0, reportMissing filt)
        else
          match writeMeta with
          | .error _ => (1, [])
          | .ok _ =>
            match copyAll with
            | .error _ => (1, [])
            | .ok _ => (0, [])

/-! ## Helper lemmas -/

theorem download_file_hit {cacheDir url : String} {s : SysState}
    (h : get_cache_filename cacheDir url ∈ s.files) :
    download_file false cacheDir url s = (get_cache_filename cacheDir url, s) := by
  simp [download_file, h]

theorem download_file_nocache (cacheDir url : String) (s : SysState) :
    download_file true cacheDir url s =
      (get_cache_filename cacheDir url,
        { s with files := get_cache_filename cacheDir url :: s.files,
                 networkOps := s.networkOps + 1 }) := by
  simp only [download_file]
  exact if_neg (by simp)

theorem download_file_fst (noCache : Bool) (cacheDir url : String) (s : SysState) :
    (download_file noCache cacheDir url s).1 = get_cache_filename cacheDir url := by
  simp only [download_file]
  split <;> rfl

theorem extract_cached_hit {extractDir url : String} {s : SysState}
    (h : get_extract_dirname extractDir url ∈ s.files) :
    extract_archive_cached false extractDir url s = (get_extract_dirname extractDir url, s) := by
  simp [extract_archive_cached, h]

theorem extract_cached_fst (noCache : Bool) (extractDir url : String) (s : SysState) :
    (extract_archive_cached noCache extractDir url s).1 = get_extract_dirname extractDir url := by
  simp only [extract_archive_cached]
  split
  · rfl
  · split <;> rfl

/-! ## C4 -/

/-- C4: the download cache path is the cache directory joined with the
URL's final path segment; the extraction directory is the extract-cache
directory joined with the URL's stem with a trailing `.tar` additionally
stripped (`archive.tar.xz` maps to `archive`); two URLs sharing a final
path segment alias to the same cache slot and extraction directory. -/
theorem cache_path_derivation :
    (∀ cacheDir url : String, get_cache_filename cacheDir url = cacheDir ++ "/" ++ pyName url) ∧
    (∀ u1 u2 : String, pyName u1 = pyName u2 →
      (∀ cacheDir, get_cache_filename cacheDir u1 = get_cache_filename cacheDir u2) ∧
      (∀ extractDir, get_extract_dirname extractDir u1 = get_extract_dirname extractDir u2)) ∧
    get_cache_filename "cache" "https://example.com/dl/archive.tar.xz" = "cache/archive.tar.xz" ∧
    get_extract_dirname "extract" "https://example.com/dl/archive.tar.xz" = "extract/archive" := by
  refine ⟨fun _ _ => rfl, fun u1 u2 h => ?_, by decide, by decide⟩
  constructor
  · intro cacheDir
    unfold get_cache_filename
    rw [h]
  · intro extractDir
    unfold get_extract_dirname
    rw [h]

/-- Witness for C4 at two distinct URLs sharing the final path segment. -/
theorem cache_path_derivation_witness :
    get_cache_filename "cache" "https://a.example/files/LLVM-19.1.2-Linux-X64.tar.xz" =
      get_cache_filename "cache" "https://b.example/mirror/LLVM-19.1.2-Linux-X64.tar.xz" ∧
    get_extract_dirname "extract" "https://a.example/files/LLVM-19.1.2-Linux-X64.tar.xz" =
      get_extract_dirname "extract" "https://b.example/mirror/LLVM-19.1.2-Linux-X64.tar.xz" := by
  have h := cache_path_derivation.2.1
    "https://a.example/files/LLVM-19.1.2-Linux-X64.tar.xz"
    "https://b.example/mirror/LLVM-19.1.2-Linux-X64.tar.xz" (by decide)
  exact ⟨h.1 "cache", h.2 "extract"⟩

/-! ## C3 -/

/-- C3: with caching enabled and the target present, `download_file` and
`extract_archive` return immediately with the same deterministic path and
perform no network or extraction work (re-running is a no-op); with
`no_cache`, both always perform the work — the extraction step first
removing any existing directory at the target — while returning the same
paths a cache-enabled run returns. -/
theorem caching_behaviour (cacheDir extractDir url : String) (s : SysState) :
    (get_cache_filename cacheDir url ∈ s.files →
      download_file false cacheDir url s = (get_cache_filename cacheDir url, s)) ∧
    (get_extract_dirname extractDir url ∈ s.files →
      extract_archive_cached false extractDir url s = (get_extract_dirname extractDir url, s)) ∧
    download_file false cacheDir url (download_file false cacheDir url s).2 =
      download_file false cacheDir url s ∧
    extract_archive_cached false extractDir url (extract_archive_cached false extractDir url s).2 =
      extract_archive_cached false extractDir url s ∧
    (download_file true cacheDir url s).2.networkOps = s.networkOps + 1 ∧
    (extract_archive_cached true extractDir url s).2.extractOps = s.extractOps + 1 ∧
    (download_file true cacheDir url s).1 = (download_file false cacheDir url s).1 ∧
    (extract_archive_cached true extractDir url s).1 =
      (extract_archive_cached false extractDir url s).1 ∧
    (get_extract_dirname extractDir url ∈ s.files →
      (extract_archive_cached true extractDir url s).2.removals =
        get_extract_dirname extractDir url :: s.removals) := by
  refine ⟨fun h => download_file_hit h, fun h => extract_cached_hit h, ?_, ?_, ?_, ?_, ?_, ?_, ?_⟩
  · by_cases h : get_cache_filename cacheDir url ∈ s.files
    · simp [download_file_hit h]
    · have h1 : download_file false cacheDir url s =
          (get_cache_filename cacheDir url,
            { s with files := get_cache_filename cacheDir url :: s.files,
                     networkOps := s.networkOps + 1 }) := by
        simp only [download_file]
        exact if_neg (by simp [h])
      rw [h1]
      exact download_file_hit (List.mem_cons_self _ _)
  · by_cases h : get_extract_dirname extractDir url ∈ s.files
    · simp [extract_cached_hit h]
    · have h1 : extract_archive_cached false extractDir url s =
          (get_extract_dirname extractDir url,
            { s with files := get_extract_dirname extractDir url :: s.files,
                     extractOps := s.extractOps + 1 }) := by
        simp only [extract_archive_cached]
        rw [if_neg (by simp [h]), if_neg h]
      rw [h1]
      exact extract_cached_hit (List.mem_cons_self _ _)
  · rw [download_file_nocache]
  · simp only [extract_archive_cached]
    rw [if_neg (by simp)]
    split <;> rfl
  · rw [download_file_fst, download_file_fst]
  · rw [extract_cached_fst, extract_cached_fst]
  · intro h
    simp only [extract_archive_cached]
    rw [if_neg (by simp), if_pos h]

/-- Witness for C3: a state in which both cached artifacts already exist. -/
theorem caching_behaviour_witness :
    download_file false "cache" "https://example.com/LLVM-19.1.2-Linux-X64.tar.xz"
        ⟨["cache/LLVM-19.1.2-Linux-X64.tar.xz", "extract/LLVM-19.1.2-Linux-X64"], 0, 0, []⟩ =
      ("cache/LLVM-19.1.2-Linux-X64.tar.xz",
        ⟨["cache/LLVM-19.1.2-Linux-X64.tar.xz", "extract/LLVM-19.1.2-Linux-X64"], 0, 0, []⟩) ∧
    (extract_archive_cached true "extract" "https://example.com/LLVM-19.1.2-Linux-X64.tar.xz"
        ⟨["cache/LLVM-19.1.2-Linux-X64.tar.xz", "extract/LLVM-19.1.2-Linux-X64"], 0, 0, []⟩).2.removals =
      ["extract/LLVM-19.1.2-Linux-X64"] := by
  have h := caching_behaviour "cache" "extract" "https://example.com/LLVM-19.1.2-Linux-X64.tar.xz"
    ⟨["cache/LLVM-19.1.2-Linux-X64.tar.xz", "extract/LLVM-19.1.2-Linux-X64"], 0, 0, []⟩
  exact ⟨h.1 (by decide), h.2.2.2.2.2.2.2.2 (by decide)⟩

/-! ## C8 -/

/-- C8: the run exits with code 0 when the discovered-binary set is empty,
reporting the requested (non-`.exe`) filter names; it exits with code 1
whenever any pipeline step raises. -/
theorem process_exit_codes (filt : Option (List String)) (dl : Except String String)
    (ext : String → Except String String) (findB : String → Except String (List FileEntry))
    (wm cp : Except String Unit) :
    (∀ tp ep, dl = .ok tp → ext tp = .ok ep → findB ep = .ok [] →
      processRun false filt dl ext findB wm cp = (0, reportMissing filt)) ∧
    (∀ e lo, dl = .error e → processRun lo filt dl ext findB wm cp = (1, [])) ∧
    (∀ tp e lo, dl = .ok tp → ext tp = .error e →
      processRun lo filt dl ext findB wm cp = (1, [])) ∧
    (∀ tp ep e lo, dl = .ok tp → ext tp = .ok ep → findB ep = .error e →
      processRun lo filt dl ext findB wm cp = (1, [])) ∧
    (∀ tp ep bins e, dl = .ok tp → ext tp = .ok ep → findB ep = .ok bins → bins ≠ [] →
      wm = .error e → processRun false filt dl ext findB wm cp = (1, [])) ∧
    (∀ tp ep bins e, dl = .ok tp → ext tp = .ok ep → findB ep = .ok bins → bins ≠ [] →
      wm = .ok () → cp = .error e → processRun false filt dl ext findB wm cp = (1, [])) := by
  refine ⟨?_, ?_, ?_, ?_, ?_, ?_⟩
  · intro tp ep h1 h2 h3
    simp [processRun, h1, h2, h3]
  · intro e lo h
    simp [processRun, h]
  · intro tp e lo h1 h2
    simp [processRun, h1, h2]
  · intro tp ep e lo h1 h2 h3
    simp [processRun, h1, h2, h3]
  · intro tp ep bins e h1 h2 h3 h4 h5
    simp [processRun, h1, h2, h3, h5, List.isEmpty_iff, h4]
  · intro tp ep bins e h1 h2 h3 h4 h5 h6
    simp [processRun, h1, h2, h3, h5, h6, List.isEmpty_iff, h4]

/-- Witness for C8: a run that finds no binaries exits 0 and reports the
requested filter names. -/
theorem process_exit_codes_witness :
    processRun false (some ["clang", "clang.exe"]) (.ok "tarball") (fun _ => .ok "dir")
      (fun _ => .ok ([] : List FileEntry)) (.ok ()) (.ok ()) = (0, ["clang"]) := by
  exact (process_exit_codes (some ["clang", "clang.exe"]) (.ok "tarball") (fun _ => .ok "dir")
    (fun _ => .ok ([] : List FileEntry)) (.ok ()) (.ok ())).1 "tarball" "dir" rfl rfl rfl

/-! ## C2 -/

/-- C2 counterexample: the metadata actually written contains exactly the
keys `version`, `platform`, `os`, `release_tag`, `source_url`,
`extraction_date` and `processed_binaries`; it has no `name` field and no
content-type field, contrary to the claim. -/
theorem metadata_fields_counterexample :
    (process_metadata "https://example.com/LLVM-19.1.2-macOS-ARM64.tar.xz"
        "2025-01-01T00:00:00+00:00" ["clang"]).map Prod.fst =
      ["version", "platform", "os", "release_tag", "source_url", "extraction_date",
        "processed_binaries"] ∧
    "name" ∉ (process_metadata "https://example.com/LLVM-19.1.2-macOS-ARM64.tar.xz"
        "2025-01-01T00:00:00+00:00" ["clang"]).map Prod.fst ∧
    "content_type" ∉ (process_metadata "https://example.com/LLVM-19.1.2-macOS-ARM64.tar.xz"
        "2025-01-01T00:00:00+00:00" ["clang"]).map Prod.fst ∧
    "content-type" ∉ (process_metadata "https://example.com/LLVM-19.1.2-macOS-ARM64.tar.xz"
        "2025-01-01T00:00:00+00:00" ["clang"]).map Prod.fst := by
  decide

/-- C2 as amended: for every run with a non-empty binary set the metadata
object has exactly the keys `version`/`platform`/`os`/`release_tag`/
`source_url`/`extraction_date`/`processed_binaries`, carrying the source
URL, the timestamp, the derived version, and the sorted processed binary
names — and in particular no `name` field and no content-type string. -/
theorem metadata_fields (url now : String) (binaryNames : List String) :
    (process_metadata url now binaryNames).map Prod.fst =
      ["version", "platform", "os", "release_tag", "source_url", "extraction_date",
        "processed_binaries"] ∧
    ("source_url", JVal.str url) ∈ process_metadata url now binaryNames ∧
    ("extraction_date", JVal.str now) ∈ process_metadata url now binaryNames ∧
    ("version", JVal.str (extract_version url)) ∈ process_metadata url now binaryNames ∧
    ("processed_binaries", JVal.arr (pySorted (binaryNames.map stripDisplay))) ∈
      process_metadata url now binaryNames ∧
    "name" ∉ (process_metadata url now binaryNames).map Prod.fst := by
  refine ⟨rfl, ?_, ?_, ?_, ?_, ?_⟩ <;>
    simp [process_metadata, extract_metadata]

/-! ## Filter lemmas (C6, C10) -/

theorem loadLine_invalid {acc : List String} {line : String}
    (h : pyStrip line = "" ∨ List.isPrefixOf "#".data (pyStrip line).data) :
    loadLine acc line = acc := by
  rcases h with h | h
  · simp [loadLine, h]
  · simp [loadLine, h]

theorem foldl_loadLine_invalid : ∀ (lines : List String) (acc : List String),
    (∀ l ∈ lines, pyStrip l = "" ∨ List.isPrefixOf "#".data (pyStrip l).data) →
    lines.foldl loadLine acc = acc
  | [], _, _ => rfl
  | l :: rest, acc, h => by
    rw [List.foldl_cons, loadLine_invalid (h l (List.mem_cons_self _ _))]
    exact foldl_loadLine_invalid rest acc (fun x hx => h x (List.mem_cons_of_mem _ hx))

theorem mem_foldl_loadLine : ∀ (lines : List String) (acc : List String) (x : String),
    x ∈ acc → x ∈ lines.foldl loadLine acc
  | [], _, _, h => h
  | l :: rest, acc, x, h => by
    rw [List.foldl_cons]
    apply mem_foldl_loadLine rest
    simp only [loadLine]
    split
    · exact List.mem_append_left _ h
    · exact h

theorem mem_load_binaries_of : ∀ (lines : List String) (acc : List String) (line : String),
    line ∈ lines → pyStrip line ≠ "" → ¬ List.isPrefixOf "#".data (pyStrip line).data →
    pyStrip line ∈ lines.foldl loadLine acc ∧
      pyStrip line ++ ".exe" ∈ lines.foldl loadLine acc
  | [], _, _, h, _, _ => absurd h (List.not_mem_nil _)
  | l :: rest, acc, line, hmem, h1, h2 => by
    rw [List.foldl_cons]
    rcases List.mem_cons.mp hmem with rfl | hmem'
    · constructor <;> apply mem_foldl_loadLine
      · unfold loadLine
        rw [if_pos ⟨h1, h2⟩]
        exact List.mem_append_right _ (by simp)
      · unfold loadLine
        rw [if_pos ⟨h1, h2⟩]
        exact List.mem_append_right _ (by simp)
    · exact mem_load_binaries_of rest (loadLine acc l) line hmem' h1 h2

/-! ## C10 -/

/-- C10: a binaries file of only blank and comment lines loads as the
empty filter, and the empty filter behaves exactly like no filter: every
name matches. -/
theorem empty_filter_matches_all (lines : List String)
    (h : ∀ l ∈ lines, pyStrip l = "" ∨ List.isPrefixOf "#".data (pyStrip l).data) :
    load_binaries lines = [] ∧
    ∀ name, matches_binary_filter (some (load_binaries lines)) name =
      matches_binary_filter none name := by
  have hload : load_binaries lines = [] := foldl_loadLine_invalid lines [] h
  refine ⟨hload, fun name => ?_⟩
  rw [hload]
  rfl

/-- Witness for C10 at a concrete blank-and-comments binaries file. -/
theorem empty_filter_matches_all_witness :
    load_binaries ["", "   ", "# clang"] = [] ∧
    matches_binary_filter (some (load_binaries ["", "   ", "# clang"])) "clang" =
      matches_binary_filter none "clang" := by
  have h := empty_filter_matches_all ["", "   ", "# clang"] (by decide)
  exact ⟨h.1, h.2 "clang"⟩

/-! ## C6 -/

/-- C6: a filter loaded from a file containing a (non-blank, non-comment)
entry accepts both the bare name and its `.exe` alias; the scan result
keeps each path at most once; with no filter configured every qualifying
entry is retained. -/
theorem filter_exe_aliasing (lines : List String) (line : String) (entries : List FileEntry)
    (hmem : line ∈ lines) (h1 : pyStrip line ≠ "")
    (h2 : ¬ List.isPrefixOf "#".data (pyStrip line).data) (hnd : entries.Nodup) :
    matches_binary_filter (some (load_binaries lines)) (pyStrip line) = true ∧
    matches_binary_filter (some (load_binaries lines)) (pyStrip line ++ ".exe") = true ∧
    (find_binaries (some (load_binaries lines)) entries).Nodup ∧
    find_binaries none entries = entries.filter is_binary_file := by
  obtain ⟨hb, hbexe⟩ := mem_load_binaries_of lines [] line hmem h1 h2
  have hb2 : pyStrip line ∈ load_binaries lines := hb
  have hbexe2 : pyStrip line ++ ".exe" ∈ load_binaries lines := hbexe
  have hne : load_binaries lines ≠ [] := List.ne_nil_of_mem hb2
  refine ⟨?_, ?_, List.Nodup.filter _ hnd, by simp [find_binaries, matches_binary_filter]⟩
  · simp [matches_binary_filter, List.isEmpty_iff, hne]
    exact Or.inl (Or.inl hb2)
  · simp [matches_binary_filter, List.isEmpty_iff, hne]
    exact Or.inl (Or.inl hbexe2)

/-- Witness for C6: the filter file entry `foo` matches both `foo` and
`foo.exe`, once each. -/
theorem filter_exe_aliasing_witness :
    matches_binary_filter (some (load_binaries ["foo"])) "foo" = true ∧
    matches_binary_filter (some (load_binaries ["foo"])) "foo.exe" = true ∧
    (find_binaries (some (load_binaries ["foo"]))
      [⟨true, "foo", true, "ELF 64-bit LSB executable"⟩,
       ⟨true, "foo.exe", false, "PE32 executable"⟩]).Nodup ∧
    find_binaries none
        [⟨true, "foo", true, "ELF 64-bit LSB executable"⟩,
         ⟨true, "foo.exe", false, "PE32 executable"⟩] =
      List.filter is_binary_file
        [⟨true, "foo", true, "ELF 64-bit LSB executable"⟩,
         ⟨true, "foo.exe", false, "PE32 executable"⟩] := by
  exact filter_exe_aliasing ["foo"] "foo"
    [⟨true, "foo", true, "ELF 64-bit LSB executable"⟩,
     ⟨true, "foo.exe", false, "PE32 executable"⟩]
    (by decide) (by decide) (by decide) (by decide)

/-! ## Path-splitting lemmas (C1, C9) -/

theorem splitOnSlash_ne_nil (cs : List Char) : splitOnSlash cs ≠ [] := by
  induction cs with
  | nil => simp [splitOnSlash]
  | cons c rest ih =>
    simp only [splitOnSlash]
    split
    · simp
    · split
      · simp
      · simp

theorem mem_splitOnSlash_no_slash : ∀ (cs : List Char) (l : List Char),
    l ∈ splitOnSlash cs → '/' ∉ l
  | [], l, h => by
    simp [splitOnSlash] at h
    simp [h]
  | c :: rest, l, h => by
    simp only [splitOnSlash] at h
    by_cases hc : c = '/'
    · rw [if_pos hc] at h
      rcases List.mem_cons.mp h with rfl | h'
      · simp
      · exact mem_splitOnSlash_no_slash rest l h'
    · rw [if_neg hc] at h
      cases hsp : splitOnSlash rest with
      | nil => exact absurd hsp (splitOnSlash_ne_nil rest)
      | cons h0 t0 =>
        rw [hsp] at h
        rcases List.mem_cons.mp h with rfl | h'
        · intro hin
          rcases List.mem_cons.mp hin with h'' | h''
          · exact hc h''.symm
          · exact mem_splitOnSlash_no_slash rest h0 (hsp ▸ List.mem_cons_self _ _) h''
        · exact mem_splitOnSlash_no_slash rest l (hsp ▸ List.mem_cons_of_mem _ h')

theorem splitOnSlash_no_slash (cs : List Char) (h : '/' ∉ cs) : splitOnSlash cs = [cs] := by
  induction cs with
  | nil => rfl
  | cons c rest ih =>
    have hc : ¬ c = '/' := by
      intro e
      subst e
      exact h (List.mem_cons_self _ _)
    have hr : '/' ∉ rest := fun m => h (List.mem_cons_of_mem _ m)
    simp only [splitOnSlash, if_neg hc, ih hr]

theorem splitOnSlash_append (l1 cs : List Char) (h : '/' ∉ l1) :
    splitOnSlash (l1 ++ '/' :: cs) = l1 :: splitOnSlash cs := by
  induction l1 with
  | nil => simp [splitOnSlash]
  | cons a l1' ih =>
    have ha : ¬ a = '/' := by
      intro e
      subst e
      exact h (List.mem_cons_self _ _)
    have h' : '/' ∉ l1' := fun m => h (List.mem_cons_of_mem _ m)
    rw [List.cons_append]
    simp only [splitOnSlash, if_neg ha, ih h']

theorem splitOnSlash_joinSlash : ∀ (comps : List (List Char)), comps ≠ [] →
    (∀ l ∈ comps, '/' ∉ l) → splitOnSlash (joinSlash comps) = comps
  | [], h, _ => absurd rfl h
  | [c], _, h => by
    simp only [joinSlash]
    exact splitOnSlash_no_slash c (h c (List.mem_cons_self _ _))
  | c :: d :: rest, _, h => by
    show splitOnSlash (c ++ '/' :: joinSlash (d :: rest)) = _
    rw [splitOnSlash_append c _ (h c (List.mem_cons_self _ _))]
    rw [splitOnSlash_joinSlash (d :: rest) (by simp)
      (fun l hl => h l (List.mem_cons_of_mem _ hl))]

theorem rootParts_eq_nil {cs : List Char} (h : cs.head? ≠ some '/') : rootParts cs = [] := by
  unfold rootParts
  rw [if_neg h]

theorem rootParts_cases (cs : List Char) :
    rootParts cs = [] ∨ rootParts cs = [['/']] ∨ rootParts cs = [['/', '/']] := by
  unfold rootParts
  split
  · split
    · split
      · exact Or.inr (Or.inl rfl)
      · exact Or.inr (Or.inr rfl)
    · exact Or.inr (Or.inl rfl)
  · exact Or.inl rfl

theorem mem_splitFiltered_clean (cs : List Char) (l : List Char)
    (h : l ∈ (splitOnSlash cs).filter (fun l => !(l == []) && !(l == ['.']))) :
    l ≠ [] ∧ '/' ∉ l ∧ l ≠ ['.'] := by
  obtain ⟨hmem, hpred⟩ := List.mem_filter.mp h
  simp only [Bool.and_eq_true, bne_iff_ne, ne_eq, Bool.not_eq_true'] at hpred
  refine ⟨?_, mem_splitOnSlash_no_slash cs l hmem, ?_⟩
  · intro e
    have := hpred.1
    simp [e] at this
  · intro e
    have := hpred.2
    simp [e] at this

theorem joinSlash_head_append : ∀ (x : List Char) (xs : List (List Char)),
    ∃ t, joinSlash (x :: xs) = x ++ t
  | x, [] => ⟨[], by simp [joinSlash]⟩
  | x, y :: ys => ⟨'/' :: joinSlash (y :: ys), rfl⟩

theorem pyParts_pyJoin (comps : List String) (hne : comps ≠ [])
    (h : ∀ s ∈ comps, s.data ≠ [] ∧ '/' ∉ s.data ∧ s.data ≠ ['.']) :
    pyParts (pyJoin comps) = comps := by
  obtain ⟨c, rest, rfl⟩ := List.exists_cons_of_ne_nil hne
  have hc := h c (List.mem_cons_self _ _)
  have hcond : ¬ (c = "/" ∨ c = "//") := by
    rintro (rfl | rfl)
    · exact hc.2.1 (by decide)
    · exact hc.2.1 (by decide)
  simp only [pyJoin, if_neg hcond]
  unfold pyParts
  have hclean : ∀ l ∈ (c :: rest).map String.data, '/' ∉ l := by
    intro l hl
    obtain ⟨s, hs, rfl⟩ := List.mem_map.mp hl
    exact (h s hs).2.1
  have hsplit : splitOnSlash (String.mk (joinSlash ((c :: rest).map String.data))).data =
      (c :: rest).map String.data := by
    exact splitOnSlash_joinSlash _ (by simp) hclean
  have hroot : rootParts (String.mk (joinSlash ((c :: rest).map String.data))).data = [] := by
    apply rootParts_eq_nil
    obtain ⟨t, ht⟩ := joinSlash_head_append c.data (rest.map String.data)
    show (joinSlash ((c :: rest).map String.data)).head? ≠ some '/'
    rw [List.map_cons, ht]
    obtain ⟨a, as, ha⟩ := List.exists_cons_of_ne_nil hc.1
    rw [ha, List.cons_append]
    intro hh
    apply hc.2.1
    rw [ha]
    have : a = '/' := by simpa using hh
    rw [this]
    exact List.mem_cons_self _ _
  rw [hroot, hsplit, List.nil_append]
  have hfilter : ((c :: rest).map String.data).filter (fun l => !(l == []) && !(l == ['.'])) =
      (c :: rest).map String.data := by
    apply List.filter_eq_self.mpr
    intro l hl
    obtain ⟨s, hs, rfl⟩ := List.mem_map.mp hl
    have hsc := h s hs
    simp only [Bool.and_eq_true, bne_iff_ne, ne_eq, Bool.not_eq_true']
    constructor
    · simpa using hsc.1
    · simpa using hsc.2.2
  rw [hfilter, List.map_map]
  have : (String.mk ∘ String.data) = id := by
    funext s
    rfl
  rw [this, List.map_id]

theorem pyParts_drop_clean (m : String) :
    ∀ p ∈ (pyParts m).drop 1, p.data ≠ [] ∧ '/' ∉ p.data ∧ p.data ≠ ['.'] := by
  intro p hp
  have main : ∀ q ∈ ((splitOnSlash m.data).filter
      (fun l => !(l == []) && !(l == ['.']))).map String.mk,
      q.data ≠ [] ∧ '/' ∉ q.data ∧ q.data ≠ ['.'] := by
    intro q hq
    obtain ⟨cl, hcl, rfl⟩ := List.mem_map.mp hq
    exact mem_splitFiltered_clean m.data cl hcl
  unfold pyParts at hp
  rcases rootParts_cases m.data with h | h | h
  · rw [h, List.nil_append] at hp
    exact main p (List.mem_of_mem_drop hp)
  · rw [h] at hp
    simp only [List.singleton_append, List.map_cons, List.drop_succ_cons, List.drop_zero] at hp
    exact main p hp
  · rw [h] at hp
    simp only [List.singleton_append, List.map_cons, List.drop_succ_cons, List.drop_zero] at hp
    exact main p hp

theorem stripMember_none_of_no_slash (m : String) (hm : '/' ∉ m.data) :
    stripMember m = none := by
  simp only [stripMember]
  have hroot : rootParts m.data = [] := by
    apply rootParts_eq_nil
    intro hh
    exact hm (List.mem_of_mem_head? hh)
  have hparts : (pyParts m).length ≤ 1 := by
    unfold pyParts
    rw [hroot, List.nil_append, List.length_map, splitOnSlash_no_slash m.data hm]
    exact List.length_filter_le _ _
  rw [if_pos]
  rw [List.isEmpty_iff, List.drop_eq_nil_iff]
  exact hparts

theorem hasSep_false_not_mem {m : String} (hm : hasSep m = false) : '/' ∉ m.data := by
  intro hx
  have : hasSep m = true := by
    simp [hasSep, List.elem_eq_mem, hx]
  rw [this] at hm
  cases hm

theorem stripMember_isSome_iff (m : String) :
    (stripMember m).isSome = true ↔ 2 ≤ (pyParts m).length := by
  simp only [stripMember]
  by_cases h : ((pyParts m).drop 1).isEmpty
  · rw [if_pos h]
    simp only [Option.isSome_none, Bool.false_eq_true, false_iff]
    rw [List.isEmpty_iff, List.drop_eq_nil_iff] at h
    omega
  · rw [if_neg h]
    simp only [Option.isSome_some, true_iff]
    rw [List.isEmpty_iff, List.drop_eq_nil_iff] at h
    omega

theorem length_filterMap_stripMember : ∀ members : List String,
    (members.filterMap stripMember).length =
      (members.filter (fun m => decide (2 ≤ (pyParts m).length))).length
  | [] => rfl
  | m :: rest => by
    rw [List.filterMap_cons, List.filter_cons]
    by_cases h2 : 2 ≤ (pyParts m).length
    · obtain ⟨v, hv⟩ := Option.isSome_iff_exists.mp ((stripMember_isSome_iff m).mpr h2)
      rw [hv, if_pos (by simpa using h2), List.length_cons, List.length_cons,
        length_filterMap_stripMember rest]
    · have hnone : stripMember m = none := by
        cases hs : stripMember m with
        | none => rfl
        | some v =>
          exact absurd ((stripMember_isSome_iff m).mp (by rw [hs]; rfl)) h2
      rw [hnone, if_neg (by simpa using h2)]
      exact length_filterMap_stripMember rest

/-! ## C9 -/

/-- C9: in an archive where some member path contains a separator, a
member whose own path has no separator strips to the empty path and is
skipped entirely — extraction with and without that member produces the
same output. -/
theorem flat_member_skipped (m : String) (l1 l2 : List String)
    (hm : hasSep m = false) (hs : (l1 ++ l2).any hasSep = true) :
    stripMember m = none ∧
    extract_archive (l1 ++ m :: l2) = extract_archive (l1 ++ l2) := by
  have hnm : '/' ∉ m.data := hasSep_false_not_mem hm
  have hstrip : stripMember m = none := stripMember_none_of_no_slash m hnm
  refine ⟨hstrip, ?_⟩
  have h1 : (l1 ++ m :: l2).any hasSep = true := by
    rcases List.any_eq_true.mp hs with ⟨x, hx, hxs⟩
    apply List.any_eq_true.mpr
    rcases List.mem_append.mp hx with h | h
    · exact ⟨x, List.mem_append_left _ h, hxs⟩
    · exact ⟨x, List.mem_append_right _ (List.mem_cons_of_mem _ h), hxs⟩
  unfold extract_archive
  rw [if_pos h1, if_pos hs]
  simp [List.filterMap_append, List.filterMap_cons, hstrip]

/-- Witness for C9: the flat `README.txt` member of a nested archive is
never extracted. -/
theorem flat_member_skipped_witness :
    stripMember "README.txt" = none ∧
    extract_archive ["pkg/bin/clang", "README.txt"] = extract_archive ["pkg/bin/clang"] := by
  exact flat_member_skipped "README.txt" ["pkg/bin/clang"] [] (by decide) (by decide)

/-! ## C1 -/

/-- C1: when some member path contains a separator, every member is
re-rooted by dropping its first path component (those that become empty
are skipped): each member with a non-empty remainder is extracted at
exactly that remainder, every extracted path is the remainder of some
member (so no extracted path keeps its member's original first
component), and exactly the members with at least two path components are
extracted.  When no member contains a separator, all members are
extracted verbatim. -/
theorem root_stripping (members : List String) :
    (members.any hasSep = true →
      (∀ m ∈ members, ∀ (c : String) (cs : List String),
        pyParts m = c :: cs → cs ≠ [] → pyJoin cs ∈ extract_archive members) ∧
      (∀ p ∈ extract_archive members, ∃ m, m ∈ members ∧ ∃ c cs,
        pyParts m = c :: cs ∧ cs ≠ [] ∧ p = pyJoin cs ∧ pyParts p = cs) ∧
      (extract_archive members).length =
        (members.filter (fun m => decide (2 ≤ (pyParts m).length))).length) ∧
    (members.any hasSep = false → extract_archive members = members) := by
  constructor
  · intro hany
    unfold extract_archive
    rw [if_pos hany]
    refine ⟨?_, ?_, length_filterMap_stripMember members⟩
    · intro m hm c cs hparts hne
      apply List.mem_filterMap.mpr
      refine ⟨m, hm, ?_⟩
      simp only [stripMember, hparts, List.drop_succ_cons, List.drop_zero]
      simp [List.isEmpty_iff, hne]
    · intro p hp
      obtain ⟨m, hm, hstrip⟩ := List.mem_filterMap.mp hp
      simp only [stripMember] at hstrip
      by_cases hemp : ((pyParts m).drop 1).isEmpty
      · rw [if_pos hemp] at hstrip
        cases hstrip
      · rw [if_neg hemp] at hstrip
        have hp2 : p = pyJoin ((pyParts m).drop 1) := (Option.some.inj hstrip).symm
        have hne2 : (pyParts m).drop 1 ≠ [] := by
          intro h0
          rw [List.isEmpty_iff] at hemp
          exact hemp h0
        have hlen : pyParts m ≠ [] := by
          intro h0
          apply hne2
          rw [h0]
          rfl
        obtain ⟨c, cs, hcc⟩ := List.exists_cons_of_ne_nil hlen
        have hdrop : (pyParts m).drop 1 = cs := by
          rw [hcc, List.drop_succ_cons, List.drop_zero]
        refine ⟨m, hm, c, cs, hcc, ?_, ?_, ?_⟩
        · rw [hdrop] at hne2
          exact hne2
        · rw [hp2, hdrop]
        · rw [hp2, hdrop]
          apply pyParts_pyJoin
          · rw [hdrop] at hne2
            exact hne2
          · intro s hsm
            apply pyParts_drop_clean m
            rw [hdrop]
            exact hsm
  · intro hflat
    simp [extract_archive, hflat]

/-- Witness for C1: a nested archive member is extracted with its root
component dropped. -/
theorem root_stripping_witness :
    "bin/clang" ∈ extract_archive ["pkg/bin/clang", "pkg"] := by
  have h := (root_stripping ["pkg/bin/clang", "pkg"]).1 (by decide)
  exact h.1 "pkg/bin/clang" (by decide) "pkg" ["bin", "clang"] (by decide) (by decide)

/-! ## Character-case and suffix lemmas (C5) -/

theorem charLower_toNat_of_upper {c : Char} (h1 : 65 ≤ c.toNat) (h2 : c.toNat ≤ 90) :
    (charLower c).toNat = c.toNat + 32 := by
  unfold charLower
  rw [if_pos ⟨h1, h2⟩, Char.ofNat, dif_pos (Or.inl (by omega))]
  rfl

theorem charLower_fix {c : Char} (h : ¬ (65 ≤ c.toNat ∧ c.toNat ≤ 90)) : charLower c = c := by
  unfold charLower
  rw [if_neg h]

theorem charLower_eq_dot {c : Char} (h : charLower c = '.') : c = '.' := by
  by_cases hr : 65 ≤ c.toNat ∧ c.toNat ≤ 90
  · exfalso
    have hn := charLower_toNat_of_upper hr.1 hr.2
    rw [h] at hn
    have h46 : ('.').toNat = 46 := rfl
    omega
  · rw [charLower_fix hr] at h
    exact h

theorem lastDotIdx_none {cs : List Char} (h : '.' ∉ cs) : lastDotIdx cs = none := by
  induction cs with
  | nil => rfl
  | cons c rest ih =>
    have hc : ¬ c = '.' := by
      intro e
      subst e
      exact h (List.mem_cons_self _ _)
    have hr : '.' ∉ rest := fun m => h (List.mem_cons_of_mem _ m)
    simp only [lastDotIdx, ih hr, if_neg hc]

theorem lastDotIdx_append {r : List Char} (l : List Char) (hr : '.' ∉ r) :
    lastDotIdx (l ++ '.' :: r) = some l.length := by
  induction l with
  | nil => simp [lastDotIdx, lastDotIdx_none hr]
  | cons c l' ih => simp [lastDotIdx, ih]

theorem pySuffix_of_idx {name : String} {i : Nat} (hidx : lastDotIdx name.data = some i) :
    pySuffix name =
      (if 0 < i ∧ i + 1 < name.data.length then String.mk (name.data.drop i) else "") := by
  unfold pySuffix
  rw [hidx]

theorem pySuffix_of_none {name : String} (hidx : lastDotIdx name.data = none) :
    pySuffix name = "" := by
  unfold pySuffix
  rw [hidx]

theorem suffix_exe_iff (name : String) :
    pyLower (pySuffix name) = ".exe" ↔
      (List.isSuffixOf ".exe".data (pyLower name).data ∧ 4 < name.data.length) := by
  constructor
  · intro h
    cases hidx : lastDotIdx name.data with
    | none =>
      rw [pySuffix_of_none hidx] at h
      exact absurd h (by decide)
    | some i =>
      rw [pySuffix_of_idx hidx] at h
      by_cases hcond : 0 < i ∧ i + 1 < name.data.length
      · rw [if_pos hcond] at h
        have hdata : (name.data.drop i).map charLower = ".exe".data :=
          congrArg String.data h
        have hlen : (name.data.drop i).length = 4 := by
          have h1 := congrArg List.length hdata
          rw [List.length_map] at h1
          rw [h1]
          rfl
        constructor
        · rw [List.isSuffixOf_iff_suffix]
          refine ⟨(name.data.take i).map charLower, ?_⟩
          show _ = (name.data.map charLower)
          rw [← hdata, ← List.map_append, List.take_append_drop]
        · rw [List.length_drop] at hlen
          omega
      · rw [if_neg hcond] at h
        exact absurd h (by decide)
  · rintro ⟨hsuf, hlen⟩
    obtain ⟨t, ht⟩ := List.isSuffixOf_iff_suffix.mp hsuf
    have hmap : name.data.map charLower = t ++ ".exe".data := ht.symm
    obtain ⟨front, suf, hfs, hmf, hms⟩ := List.map_eq_append_iff.mp hmap
    have hms' : suf.map charLower = ['.', 'e', 'x', 'e'] := hms
    rcases suf with _ | ⟨a, _ | ⟨b, _ | ⟨c2, _ | ⟨d, rest'⟩⟩⟩⟩ <;>
      simp only [List.map_cons, List.map_nil] at hms'
    · exact absurd (congrArg List.length hms') (by simp)
    · exact absurd (congrArg List.length hms') (by simp)
    · exact absurd (congrArg List.length hms') (by simp)
    · exact absurd (congrArg List.length hms') (by simp)
    obtain ⟨ha, hb, hc2, hd, hrest⟩ :
        charLower a = '.' ∧ charLower b = 'e' ∧ charLower c2 = 'x' ∧
          charLower d = 'e' ∧ rest'.map charLower = [] := by
      have h1 := List.cons.inj hms'
      have h2 := List.cons.inj h1.2
      have h3 := List.cons.inj h2.2
      have h4 := List.cons.inj h3.2
      exact ⟨h1.1, h2.1, h3.1, h4.1, h4.2⟩
    have hrest' : rest' = [] := List.map_eq_nil_iff.mp hrest
    subst hrest'
    have ha' : a = '.' := charLower_eq_dot ha
    subst ha'
    have hbne : b ≠ '.' := by
      intro e'
      rw [e'] at hb
      exact absurd hb (by decide)
    have hc2ne : c2 ≠ '.' := by
      intro e'
      rw [e'] at hc2
      exact absurd hc2 (by decide)
    have hdne : d ≠ '.' := by
      intro e'
      rw [e'] at hd
      exact absurd hd (by decide)
    have hnodot : '.' ∉ [b, c2, d] := by
      intro hx
      rcases List.mem_cons.mp hx with h' | hx
      · exact hbne h'.symm
      rcases List.mem_cons.mp hx with h' | hx
      · exact hc2ne h'.symm
      rcases List.mem_cons.mp hx with h' | hx
      · exact hdne h'.symm
      · exact absurd hx (List.not_mem_nil _)
    have hidx : lastDotIdx name.data = some front.length := by
      rw [hfs]
      exact lastDotIdx_append front hnodot
    have hlen4 : name.data.length = front.length + 4 := by
      rw [hfs]
      simp
    rw [pySuffix_of_idx hidx, if_pos ⟨by omega, by omega⟩]
    have hdrop : name.data.drop front.length = '.' :: b :: c2 :: d :: [] := by
      rw [hfs]
      exact List.drop_left front _
    rw [hdrop]
    show String.mk (('.' :: b :: c2 :: d :: []).map charLower) = ".exe"
    simp only [List.map_cons, List.map_nil, hb, hc2, hd,
      show charLower '.' = '.' from rfl]

/-! ## C5 -/

/-- C5 counterexample: a regular, non-executable file named exactly `.exe`
ends in a case-insensitive `.exe` suffix, so the claim classifies it as a
binary, but its pathlib suffix is empty, so `is_binary_file` rejects it. -/
theorem binary_classification_counterexample :
    is_binary_file ⟨true, ".exe", false, "ASCII text"⟩ = false ∧
    claimedBinary ⟨true, ".exe", false, "ASCII text"⟩ = true ∧
    is_binary_file ⟨true, ".exe", false, "ASCII text"⟩ ≠
      claimedBinary ⟨true, ".exe", false, "ASCII text"⟩ := by
  decide

/-- C5 as amended: `is_binary_file` returns true iff the entry is a
regular file AND (its name ends in a case-insensitive `.exe` suffix and is
longer than `.exe` itself — equivalently its pathlib suffix lowercases to
`.exe` — OR it is user-executable and the content probe reports
non-textual content). -/
theorem binary_classification (e : FileEntry) :
    is_binary_file e = claimedBinaryAmended e := by
  unfold is_binary_file claimedBinaryAmended
  by_cases hf : e.isFile = false
  · rw [if_pos hf, hf]
    rfl
  · have hf' : e.isFile = true := by
      revert hf
      cases e.isFile <;> simp
    rw [if_neg hf, hf']
    by_cases hsuf : pyLower (pySuffix e.name) = ".exe"
    · have hs := (suffix_exe_iff e.name).mp hsuf
      rw [if_pos hsuf, hs.1, decide_eq_true hs.2]
      rfl
    · have hnot : ¬ (List.isSuffixOf ".exe".data (pyLower e.name).data = true ∧
          4 < e.name.data.length) := fun hc => hsuf ((suffix_exe_iff e.name).mpr hc)
      have hb1 : (List.isSuffixOf ".exe".data (pyLower e.name).data &&
          decide (4 < e.name.data.length)) = false := by
        cases hS : List.isSuffixOf ".exe".data (pyLower e.name).data
        · simp
        · cases hL : (decide (4 < e.name.data.length))
          · simp
          · exact absurd ⟨hS, of_decide_eq_true hL⟩ hnot
      rw [if_neg hsuf, hb1]
      by_cases hex : e.executable = false
      · rw [if_pos hex, hex]
        rfl
      · have hex' : e.executable = true := by
          revert hex
          cases e.executable <;> simp
        rw [if_neg hex, hex']
        rfl

/-! ## Regex matcher lemmas (C7) -/

theorem dropWhile_head_false (p : α → Bool) : ∀ (l : List α) {c : α} {t : List α},
    l.dropWhile p = c :: t → p c = false
  | [], _, _, h => nomatch h
  | a :: l', c, t, h => by
    by_cases hp : p a
    · rw [List.dropWhile_cons_of_pos hp] at h
      exact dropWhile_head_false p l' h
    · rw [List.dropWhile_cons_of_neg hp] at h
      have ha : a = c := (List.cons.inj h).1
      rw [← ha]
      simpa using hp

theorem takeWhile_all_append (p : α → Bool) : ∀ (l1 l2 : List α),
    (∀ c ∈ l1, p c = true) → (∀ c, l2.head? = some c → p c = false) →
    (l1 ++ l2).takeWhile p = l1 ∧ (l1 ++ l2).dropWhile p = l2
  | [], l2, _, h2 => by
    cases l2 with
    | nil => exact ⟨rfl, rfl⟩
    | cons c t =>
      have hc : p c = false := h2 c rfl
      rw [List.nil_append]
      exact ⟨List.takeWhile_cons_of_neg (by simp [hc]),
        List.dropWhile_cons_of_neg (by simp [hc])⟩
  | a :: l1', l2, h1, h2 => by
    have ha : p a = true := h1 a (List.mem_cons_self _ _)
    have ih := takeWhile_all_append p l1' l2 (fun c hc => h1 c (List.mem_cons_of_mem _ hc)) h2
    rw [List.cons_append]
    constructor
    · rw [List.takeWhile_cons_of_pos ha, ih.1]
    · rw [List.dropWhile_cons_of_pos ha]
      exact ih.2

theorem head_eq_of_head?_dot {l : List Char} (h : l.head? = some '.') :
    l = '.' :: l.tail := by
  cases l with
  | nil => cases h
  | cons a t =>
    injection h with h'
    rw [List.tail_cons, h']

theorem matchTripleAt_some_iff (cs v : List Char) :
    matchTripleAt cs = some v ↔ tripleDecomp cs v := by
  constructor
  · intro h
    simp only [matchTripleAt] at h
    split at h
    case isFalse => exact Option.noConfusion h
    case isTrue hpre =>
      split at h
      case isFalse => exact Option.noConfusion h
      case isTrue hd1 =>
        split at h
        case isFalse => exact Option.noConfusion h
        case isTrue hd2 =>
          split at h
          case isTrue hemp => exact Option.noConfusion h
          case isFalse hemp =>
            obtain ⟨rest, hrest⟩ : ∃ t, ['L', 'L', 'V', 'M', '-'] ++ t = cs :=
              List.isPrefixOf_iff_prefix.mp hpre
            have hdrop : cs.drop 5 = rest := by
              rw [← hrest]
              exact List.drop_left' rfl
            rw [hdrop] at h hd1 hd2 hemp
            obtain ⟨A, hA⟩ : ∃ A, rest.dropWhile Char.isDigit = '.' :: A :=
              ⟨_, head_eq_of_head?_dot hd1⟩
            rw [hA] at h hd2 hemp
            simp only [List.tail_cons] at h hd2 hemp
            obtain ⟨B, hB⟩ : ∃ B, A.dropWhile Char.isDigit = '.' :: B :=
              ⟨_, head_eq_of_head?_dot hd2⟩
            rw [hB] at h hemp
            simp only [List.tail_cons] at h hemp
            simp only [Bool.or_eq_true, not_or, Bool.not_eq_true,
              List.isEmpty_eq_false] at hemp
            have eB : B = B.takeWhile Char.isDigit ++ B.dropWhile Char.isDigit :=
              (List.takeWhile_append_dropWhile _ _).symm
            have eA : A = A.takeWhile Char.isDigit ++ '.' :: B := by
              conv_lhs => rw [← List.takeWhile_append_dropWhile Char.isDigit A]
              rw [hB]
            have erest0 : rest = rest.takeWhile Char.isDigit ++ '.' :: A := by
              conv_lhs => rw [← List.takeWhile_append_dropWhile Char.isDigit rest]
              rw [hA]
            have c1 : A.takeWhile Char.isDigit ++
                '.' :: (B.takeWhile Char.isDigit ++ B.dropWhile Char.isDigit) = A := by
              rw [← eB]
              exact eA.symm
            have erest : rest = rest.takeWhile Char.isDigit ++
                '.' :: (A.takeWhile Char.isDigit ++
                  '.' :: (B.takeWhile Char.isDigit ++ B.dropWhile Char.isDigit)) := by
              rw [c1]
              exact erest0
            refine ⟨rest.takeWhile Char.isDigit, A.takeWhile Char.isDigit,
              B.takeWhile Char.isDigit, B.dropWhile Char.isDigit, ?_, hemp.1.1, hemp.1.2,
              hemp.2, ?_, ?_, ?_, ?_, ?_⟩
            · rw [← hrest]
              conv_lhs => rw [erest]
              rfl
            · exact fun c hc => List.mem_takeWhile_imp hc
            · exact fun c hc => List.mem_takeWhile_imp hc
            · exact fun c hc => List.mem_takeWhile_imp hc
            · intro c hc
              cases hr : B.dropWhile Char.isDigit with
              | nil =>
                rw [hr] at hc
                cases hc
              | cons a t =>
                rw [hr] at hc
                injection hc with h'
                rw [← h']
                exact dropWhile_head_false Char.isDigit B hr
            · exact (Option.some.inj h).symm
  · rintro ⟨d1, d2, d3, tl, hcs, h1, h2, h3, hD1, hD2, hD3, hTail, hv⟩
    subst hcs
    subst hv
    simp only [matchTripleAt]
    have hpre : List.isPrefixOf ['L', 'L', 'V', 'M', '-']
        ('L' :: 'L' :: 'V' :: 'M' :: '-' :: (d1 ++ '.' :: (d2 ++ '.' :: (d3 ++ tl)))) := by
      rw [List.isPrefixOf_iff_prefix]
      exact ⟨d1 ++ '.' :: (d2 ++ '.' :: (d3 ++ tl)), rfl⟩
    rw [if_pos hpre]
    simp only [List.drop_succ_cons, List.drop_zero]
    have hT1 := takeWhile_all_append Char.isDigit d1 ('.' :: (d2 ++ '.' :: (d3 ++ tl))) hD1
      (fun c hc => by
        injection hc with h'
        rw [← h']
        decide)
    rw [hT1.1, hT1.2,
      if_pos (show ('.' :: (d2 ++ '.' :: (d3 ++ tl))).head? = some '.' from rfl)]
    simp only [List.tail_cons]
    have hT2 := takeWhile_all_append Char.isDigit d2 ('.' :: (d3 ++ tl)) hD2
      (fun c hc => by
        injection hc with h'
        rw [← h']
        decide)
    rw [hT2.1, hT2.2, if_pos (show ('.' :: (d3 ++ tl)).head? = some '.' from rfl)]
    simp only [List.tail_cons]
    have hT3 := takeWhile_all_append Char.isDigit d3 tl hD3 hTail
    rw [hT3.1, if_neg (by simp [List.isEmpty_iff, h1, h2, h3])]

theorem searchLLVM_some : ∀ (cs : List Char) (v : List Char), searchLLVM cs = some v →
    ∃ i, matchTripleAt (cs.drop i) = some v ∧ ∀ j < i, matchTripleAt (cs.drop j) = none
  | [], v, h => by
    simp [searchLLVM] at h
  | c :: rest, v, h => by
    cases hm : matchTripleAt (c :: rest) with
    | some w =>
      simp only [searchLLVM, hm] at h
      refine ⟨0, ?_, fun j hj => absurd hj (Nat.not_lt_zero j)⟩
      rw [List.drop_zero, hm, h]
    | none =>
      simp only [searchLLVM, hm] at h
      obtain ⟨i, hi, hlt⟩ := searchLLVM_some rest v h
      refine ⟨i + 1, by rw [List.drop_succ_cons]; exact hi, ?_⟩
      intro j hj
      cases j with
      | zero =>
        rw [List.drop_zero]
        exact hm
      | succ k =>
        rw [List.drop_succ_cons]
        exact hlt k (by omega)

theorem searchLLVM_none : ∀ (cs : List Char), searchLLVM cs = none →
    ∀ i, matchTripleAt (cs.drop i) = none
  | [], _, i => by
    rw [List.drop_nil]
    rfl
  | c :: rest, h, i => by
    cases hm : matchTripleAt (c :: rest) with
    | some w =>
      simp only [searchLLVM, hm] at h
      exact Option.noConfusion h
    | none =>
      simp only [searchLLVM, hm] at h
      cases i with
      | zero =>
        rw [List.drop_zero]
        exact hm
      | succ k =>
        rw [List.drop_succ_cons]
        exact searchLLVM_none rest h k

theorem containsSeq_map (f : Char → Char) : ∀ (pat cs : List Char),
    containsSeq pat cs = true → containsSeq (pat.map f) (cs.map f) = true
  | pat, [], h => by
    simp only [containsSeq, List.isEmpty_iff] at h
    simp [containsSeq, h]
  | pat, c :: rest, h => by
    simp only [containsSeq, Bool.or_eq_true] at h ⊢
    rcases h with h | h
    · left
      rw [List.isPrefixOf_iff_prefix] at h ⊢
      have := h.map f
      simpa using this
    · right
      exact containsSeq_map f pat rest h

/-! ## C7 -/

/-- C7: the version is the leftmost `LLVM-`-anchored `X.Y.Z` triple of
maximal digit runs in the URL (`unknown` when no position matches), and a
URL containing `ARM64` classifies as platform `arm64` while one containing
`macOS` classifies as OS `darwin`. -/
theorem version_platform_extraction :
    extract_version "https://example.com/LLVM-19.1.2-Linux-X64.tar.xz" = "19.1.2" ∧
    (∀ url : String, (¬ ∃ i v, tripleDecomp (url.data.drop i) v) →
      extract_version url = "unknown") ∧
    (∀ (url : String) (v : List Char), searchLLVM url.data = some v →
      extract_version url = String.mk v ∧
      ∃ i, tripleDecomp (url.data.drop i) v ∧
        ∀ j < i, ∀ w, ¬ tripleDecomp (url.data.drop j) w) ∧
    (∀ url : String, pyIn "ARM64" url = true → extract_platform url = "arm64") ∧
    (∀ url : String, pyIn "macOS" url = true → extract_os url = "darwin") := by
  refine ⟨by decide, ?_, ?_, ?_, ?_⟩
  · intro url hno
    cases hs : searchLLVM url.data with
    | none => simp [extract_version, hs]
    | some v =>
      exfalso
      obtain ⟨i, hi, _⟩ := searchLLVM_some url.data v hs
      exact hno ⟨i, v, (matchTripleAt_some_iff _ v).mp hi⟩
  · intro url v hs
    obtain ⟨i, hi, hlt⟩ := searchLLVM_some url.data v hs
    refine ⟨by simp [extract_version, hs], i, (matchTripleAt_some_iff _ v).mp hi, ?_⟩
    intro j hj w hw
    have := (matchTripleAt_some_iff _ w).mpr hw
    rw [hlt j hj] at this
    cases this
  · intro url h
    have h2 : containsSeq ("ARM64".data.map charUpper) (url.data.map charUpper) = true :=
      containsSeq_map charUpper "ARM64".data url.data h
    rw [show "ARM64".data.map charUpper = "ARM64".data by decide] at h2
    unfold extract_platform
    rw [if_pos (show pyIn "ARM64" (pyUpper url) = true from h2)]
  · intro url h
    have h2 : containsSeq ("macOS".data.map charLower) (url.data.map charLower) = true :=
      containsSeq_map charLower "macOS".data url.data h
    rw [show "macOS".data.map charLower = "macos".data by decide] at h2
    unfold extract_os
    rw [if_pos (show pyIn "macos" (pyLower url) = true from h2)]

/-- Witness for C7 at a concrete macOS ARM64 release URL. -/
theorem version_platform_extraction_witness :
    extract_platform "https://example.com/LLVM-19.1.2-macOS-ARM64.tar.xz" = "arm64" ∧
    extract_os "https://example.com/LLVM-19.1.2-macOS-ARM64.tar.xz" = "darwin" ∧
    extract_version "https://example.com/LLVM-19.1.2-macOS-ARM64.tar.xz" = "19.1.2" := by
  refine ⟨version_platform_extraction.2.2.2.1
      "https://example.com/LLVM-19.1.2-macOS-ARM64.tar.xz" (by decide),
    version_platform_extraction.2.2.2.2
      "https://example.com/LLVM-19.1.2-macOS-ARM64.tar.xz" (by decide),
    ?_⟩
  exact (version_platform_extraction.2.2.1
    "https://example.com/LLVM-19.1.2-macOS-ARM64.tar.xz" "19.1.2".data (by decide)).1

end ProcessBinary
